import Mathlib

/-!
Verification of the promptflow utility layer.

This file gives a shallow embedding of the pure logic of
`src/utils/api-client.js`, `src/utils/helpers.js` and the reaction
predicates of `src/utils/github-client.js`, and proves the claimed
properties about them.

Modelling conventions:
* JS strings are modelled as Lean `String` / `List Char`; all character
  level operations (split, trim, lower-casing, substring search) are
  implemented explicitly over `List Char` so that the JS semantics is
  spelled out rather than inherited from library functions.
* JS lower-casing and the `\w` character class are modelled at the ASCII
  level (the inputs handled by the program are ASCII keys and markers);
  non-ASCII simple case mappings are not modelled.
* The network (axios) is modelled as an oracle `Net` mapping a request to
  either a response object or an error message; `callLlmApi` additionally
  returns the list of attempts it made, which is the observation used to
  state the failover properties.
* `JSON.stringify` of a response object is carried as an explicit `raw`
  field of the modelled response rather than recomputed.
-/

/-! ## Character-level helpers (JS string semantics) -/

/-- The ECMAScript WhiteSpace and LineTerminator characters removed by
`String.prototype.trim`. -/
def isJsWhitespace (c : Char) : Bool :=
  c = ' ' ∨ c = '\t' ∨ c = '\n' ∨ c = '\r' ∨ c = '\u000B' ∨ c = '\u000C' ∨
  c = '\u00A0' ∨ c = '\u1680' ∨ c = '\u2000' ∨ c = '\u2001' ∨ c = '\u2002' ∨
  c = '\u2003' ∨ c = '\u2004' ∨ c = '\u2005' ∨ c = '\u2006' ∨ c = '\u2007' ∨
  c = '\u2008' ∨ c = '\u2009' ∨ c = '\u200A' ∨ c = '\u202F' ∨ c = '\u205F' ∨
  c = '\u3000' ∨ c = '\u2028' ∨ c = '\u2029' ∨ c = '\uFEFF'

/-- JS `String.prototype.trim`: remove leading and trailing whitespace. -/
def jsTrim (cs : List Char) : List Char :=
  ((cs.dropWhile isJsWhitespace).reverse.dropWhile isJsWhitespace).reverse

/-- ASCII lower-casing of one character (model of the simple case mapping
used by `toLowerCase` on the ASCII inputs of this program). -/
def asciiLower (c : Char) : Char :=
  if 'A' ≤ c ∧ c ≤ 'Z' then Char.ofNat (c.toNat + 32) else c

/-- JS `String.prototype.toLowerCase`, modelled on ASCII letters. -/
def jsToLower (cs : List Char) : List Char := cs.map asciiLower

/-- JS `String.prototype.split` with a one-character separator: splits into
the (possibly empty) pieces between separator occurrences. -/
def splitOnChar (sep : Char) : List Char → List (List Char)
  | [] => [[]]
  | c :: rest =>
    if c = sep then [] :: splitOnChar sep rest
    else
      match splitOnChar sep rest with
      | l :: ls => (c :: l) :: ls
      | [] => [[c]]

/-- JS `String.prototype.includes`: substring containment. -/
def jsIncludes (hay needle : List Char) : Bool :=
  match hay with
  | [] => needle.isEmpty
  | c :: t => needle.isPrefixOf (c :: t) || jsIncludes t needle

/-! ## Config parser (`parseApiConfig`, api-client.js) -/

/-- A parsed provider configuration, mirroring the object literal built by
`parseApiConfig`: model name, endpoint url, ordered credential list and the
provider kind tag (defaulted to "openai"). -/
structure ApiConfig where
  name : String
  url : String
  keys : List String
  type : String
deriving DecidableEq

/-- The initial accumulator of `parseApiConfig`. -/
def initialConfig : ApiConfig := ⟨"", "", [], "openai"⟩

/-- An ASCII or full-width colon, the separators of the line pattern. -/
def isColonChar (c : Char) : Bool := c = ':' ∨ c = '：'

/-- A character matched by the JS regex wildcard "." (anything except the
line terminators LF, CR, LS, PS). -/
def jsDotChar (c : Char) : Bool :=
  c ≠ '\n' ∧ c ≠ '\r' ∧ c ≠ '\u2028' ∧ c ≠ '\u2029'

/-- Model of matching one line against the regex used by `parseApiConfig`
(lazy key group, one ASCII or full-width colon, lazy value group anchored
at both ends).  The match succeeds exactly when every character of the
line is matchable by "." and the line contains a colon; the lazy key group
makes the split happen at the first colon. -/
def lineMatch (line : List Char) : Option (List Char × List Char) :=
  if line.all jsDotChar ∧ line.any isColonChar then
    some (line.takeWhile (fun c => ¬ isColonChar c),
          (line.dropWhile (fun c => ¬ isColonChar c)).tail)
  else none

/-- A single quote or double quote character. -/
def isQuoteChar (c : Char) : Bool := c = '\'' ∨ c = '"'

/-- Drop one leading quote character if present (first alternative of the
quote-stripping regex). -/
def dropLeadQuote : List Char → List Char
  | [] => []
  | c :: rest => if isQuoteChar c then rest else c :: rest

/-- Drop one trailing quote character if present (second alternative of the
quote-stripping regex). -/
def dropTrailQuote (cs : List Char) : List Char :=
  match cs.getLast? with
  | some c => if isQuoteChar c then cs.dropLast else cs
  | none => []

/-- The value-cleaning chain of `parseApiConfig`: remove every carriage
return, trim surrounding whitespace, then strip a single layer of
surrounding quote characters. -/
def cleanValue (v : List Char) : List Char :=
  dropTrailQuote (dropLeadQuote (jsTrim (v.filter (fun c => c ≠ '\r'))))

/-- Processing of one line by the loop body of `parseApiConfig`: on a regex
match, clean the key and dispatch on case-insensitive substring matching in
the fixed priority name, url, key, type. -/
def applyLine (cfg : ApiConfig) (line : List Char) : ApiConfig :=
  match lineMatch line with
  | none => cfg
  | some (key, value) =>
    let trimmedKey := jsToLower (jsTrim key)
    let trimmedValue := cleanValue value
    if jsIncludes trimmedKey "name".toList then
      { cfg with name := ⟨trimmedValue⟩ }
    else if jsIncludes trimmedKey "url".toList then
      { cfg with url := ⟨trimmedValue⟩ }
    else if jsIncludes trimmedKey "key".toList then
      { cfg with keys := cfg.keys ++ [⟨trimmedValue⟩] }
    else if jsIncludes trimmedKey "type".toList then
      { cfg with type := ⟨jsToLower trimmedValue⟩ }
    else cfg

/-- Model of `parseApiConfig` of api-client.js: split the comment body into lines
and fold the line processor over them. -/
def parseApiConfig (commentBody : String) : ApiConfig :=
  (splitOnChar '\n' commentBody.toList).foldl applyLine initialConfig

/-! ## Batch extraction (`extractApiConfigs`, api-client.js) -/

/-- The REST reactions rollup of an issue comment; `negOne` is the value of
its "-1" (thumbs-down) field, with 0 also covering an absent field. -/
structure IssueReactions where
  negOne : Nat
deriving DecidableEq

/-- An issue comment as consumed by `extractApiConfigs`: creation time
(modelled as the numeric timestamp the JS code obtains from `new Date`),
body text and optional reactions rollup. -/
structure IssueComment where
  created_at : Nat
  body : String
  reactions : Option IssueReactions
deriving DecidableEq

/-- Model of `hasThumbsDownReaction` of api-client.js: false when the reactions
data is absent, otherwise whether the "-1" count is positive. -/
def hasThumbsDownReaction (comment : IssueComment) : Bool :=
  match comment.reactions with
  | none => false
  | some r => r.negOne > 0

/-- The ascending-by-creation-time comparator order of
`extractApiConfigs`. -/
def byCreated (a b : IssueComment) : Prop := a.created_at ≤ b.created_at

instance : DecidableRel byCreated := fun _ _ => Nat.decLe _ _

instance : IsTotal IssueComment byCreated := ⟨fun _ _ => Nat.le_total _ _⟩

instance : IsTrans IssueComment byCreated := ⟨fun _ _ _ => Nat.le_trans⟩

/-- The comparator-based stable sort of `extractApiConfigs` (JS
`Array.prototype.sort` is a stable sort, whose output is uniquely
determined; it is modelled by a stable insertion sort). -/
def sortComments (comments : List IssueComment) : List IssueComment :=
  comments.insertionSort byCreated

/-- The completeness test of `extractApiConfigs` (JS truthiness of
`config.url && config.name && config.keys.length > 0`). -/
def isCompleteConfig (cfg : ApiConfig) : Bool :=
  cfg.url ≠ "" ∧ cfg.name ≠ "" ∧ cfg.keys.length > 0

/-- The accumulation loop of `extractApiConfigs` over the sorted comments:
skip negatively-reacted comments, parse the rest, keep complete configs. -/
def extractLoop : List IssueComment → List ApiConfig
  | [] => []
  | comment :: rest =>
    if hasThumbsDownReaction comment then extractLoop rest
    else
      let config := parseApiConfig comment.body
      if isCompleteConfig config then config :: extractLoop rest
      else extractLoop rest

/-- Model of `extractApiConfigs` of api-client.js. -/
def extractApiConfigs (comments : List IssueComment) : List ApiConfig :=
  extractLoop (sortComments comments)

/-! ## Provider invoker (`callLlmApi`, api-client.js)

The request body built by `formatApiRequest`; the constant generation
settings (temperature 0.7, token limit 20000) are fixed literals in the
source and are not part of the model. -/

/-- Request body shape: one user turn for Gemini-style, or a chat
completion body carrying the model name for the OpenAI-style default. -/
inductive RequestData where
  | geminiBody (promptText : String)
  | openaiBody (model : String) (content : String)
deriving DecidableEq

/-- Model of `formatApiRequest` of api-client.js: Gemini body for type "gemini",
OpenAI-style body otherwise. -/
def formatApiRequest (prompt : String) (config : ApiConfig) : RequestData :=
  if config.type = "gemini" then .geminiBody prompt
  else .openaiBody config.name prompt

/-- One generated-text candidate part of a Gemini response. -/
structure GemPart where
  text : Option String
deriving DecidableEq

/-- The content of a Gemini candidate. -/
structure GemContent where
  parts : List GemPart
deriving DecidableEq

/-- A Gemini response candidate; `content` may be absent. -/
structure GemCandidate where
  content : Option GemContent
deriving DecidableEq

/-- The message of an OpenAI-style completion choice. -/
structure ChatMessage where
  content : Option String
deriving DecidableEq

/-- An OpenAI-style completion choice with optional message and legacy
text field. -/
structure ChatChoice where
  message : Option ChatMessage
  text : Option String
deriving DecidableEq

/-- A provider JSON response as read by `extractGeneratedText`.  An empty
`candidates` (resp. `choices`) list also models an absent field, which the
code observes identically.  `raw` carries `JSON.stringify` of the response
object, which the code uses as fallback text. -/
structure ApiResponse where
  candidates : List GemCandidate
  choices : List ChatChoice
  raw : String
deriving DecidableEq

/-- A JS expression value that is either a string or `undefined`. -/
inductive JsValue where
  | str (s : String)
  | undef
deriving DecidableEq

/-- JS truthiness filter for an optional string: `undefined` and the empty
string are falsy. -/
def jsTruthy (o : Option String) : Option String :=
  match o with
  | some s => if s = "" then none else some s
  | none => none

/-- Model of `extractGeneratedText` of api-client.js.  For "gemini": the first
part text of the first candidate; a missing `content` or empty `parts`
raises inside the function's own try block and falls to the stringify
fallback, while a present part with a missing `text` field yields the JS
value `undefined`.  Otherwise: the first choice's `message.content` or
legacy `text`, with empty strings falsy, defaulting to the empty string;
no candidates or choices yields the stringified response. -/
def extractGeneratedText (apiResponse : ApiResponse) (type : String) : JsValue :=
  if type = "gemini" then
    match apiResponse.candidates with
    | [] => .str apiResponse.raw
    | cand :: _ =>
      match cand.content with
      | none => .str apiResponse.raw
      | some content =>
        match content.parts with
        | [] => .str apiResponse.raw
        | p :: _ =>
          match p.text with
          | none => .undef
          | some t => .str t
  else
    match apiResponse.choices with
    | [] => .str apiResponse.raw
    | ch :: _ =>
      match jsTruthy (ch.message.bind (fun m => m.content)) with
      | some s => .str s
      | none =>
        match jsTruthy ch.text with
        | some s => .str s
        | none => .str ""

/-- A network request as issued by the loop body of `callLlmApi`: the
final URL (which embeds the credential as a query parameter for Gemini),
the optional bearer credential header, and the JSON body. -/
structure NetRequest where
  url : String
  bearer : Option String
  body : RequestData
deriving DecidableEq

/-- Build the request for one credential: Gemini transmits the key as a
query parameter, the default transmits it as a bearer token header. -/
def buildRequest (config : ApiConfig) (reqData : RequestData) (key : String) : NetRequest :=
  if config.type = "gemini" then
    { url := config.url ++ "?key=" ++ key, bearer := none, body := reqData }
  else
    { url := config.url, bearer := some key, body := reqData }

/-- The network oracle: what `axios.post` returns for a request — either
the parsed response data or a thrown error's message. -/
def Net : Type := NetRequest → Except String ApiResponse

/-- One observed network attempt: which config and credential were used
and the request that was posted. -/
structure Attempt where
  config : ApiConfig
  key : String
  req : NetRequest
deriving DecidableEq

/-- The inner credential loop of `callLlmApi`: try each key in order,
returning the trace of attempts, the extracted text on first success, and
the threaded `lastError`. -/
def tryKeysLoop (net : Net) (config : ApiConfig) (reqData : RequestData)
    (lastError : Option String) :
    List String → List Attempt × Option JsValue × Option String
  | [] => ([], none, lastError)
  | key :: rest =>
    let req := buildRequest config reqData key
    match net req with
    | .ok resp =>
      ([⟨config, key, req⟩], some (extractGeneratedText resp config.type), lastError)
    | .error e =>
      let (tr, res, le) := tryKeysLoop net config reqData (some e) rest
      (⟨config, key, req⟩ :: tr, res, le)

/-- The outer config loop of `callLlmApi`: build the request body once per
config, run the credential loop, stop on first success. -/
def tryConfigsLoop (net : Net) (prompt : String) (lastError : Option String) :
    List ApiConfig → List Attempt × Option JsValue × Option String
  | [] => ([], none, lastError)
  | config :: rest =>
    let reqData := formatApiRequest prompt config
    let (tr, res, le) := tryKeysLoop net config reqData lastError config.keys
    match res with
    | some v => (tr, some v, le)
    | none =>
      let (tr2, res2, le2) := tryConfigsLoop net prompt le rest
      (tr ++ tr2, res2, le2)

/-- The observable outcome of `callLlmApi`: the missing-configs error, the
terminal all-providers-failed error carrying the last observed error
message, or the first successful attempt's extracted text. -/
inductive CallOutcome where
  | noConfigs
  | allFailed (lastError : Option String)
  | success (text : JsValue)
deriving DecidableEq

/-- Model of `callLlmApi` of api-client.js, returning its outcome together with the
ordered trace of network attempts it performed. -/
def callLlmApi (net : Net) (apiConfigs : List ApiConfig) (prompt : String) :
    CallOutcome × List Attempt :=
  if apiConfigs.isEmpty then (.noConfigs, [])
  else
    match tryConfigsLoop net prompt none apiConfigs with
    | (tr, some v, _) => (.success v, tr)
    | (tr, none, le) => (.allFailed le, tr)

/-! ## Prompt extractor and template filler (helpers.js) -/

/-- The JS word-character class backslash-w: ASCII letters, digits and
underscore. -/
def isWordChar (c : Char) : Bool :=
  ('a' ≤ c ∧ c ≤ 'z') ∨ ('A' ≤ c ∧ c ≤ 'Z') ∨ ('0' ≤ c ∧ c ≤ '9') ∨ c = '_'

/-- The literal suffix required of the prompt token. -/
def promptSuffix : List Char := "Prompt".toList

/-- A prompt record: the captured token and the trimmed content. -/
structure PromptRecord where
  type : String
  content : String
deriving DecidableEq

/-- Model of `extractPrompt` of helpers.js, a model of the anchored regex:
the maximal word-character prefix must be nonempty beyond the literal
"Prompt" suffix, end with it, and be followed by an ASCII or full-width
colon; the content is the trimmed remainder.  Any other text yields
`none`. -/
def extractPrompt (commentBody : String) : Option PromptRecord :=
  let cs := commentBody.toList
  let tok := cs.takeWhile isWordChar
  match cs.dropWhile isWordChar with
  | [] => none
  | c :: tail =>
    if isColonChar c ∧ 6 < tok.length ∧ tok.drop (tok.length - 6) = promptSuffix then
      some ⟨⟨tok⟩, ⟨jsTrim tail⟩⟩
    else none

/-- The literal placeholder token of `fillTemplate` (the Chinese word for
"article" between double braces). -/
def marker : String := "\x7b\x7b文章\x7d\x7d"

/-- The ECMAScript GetSubstitution step of `String.prototype.replace` for
a string pattern: expand the dollar forms in the replacement (matched
text, preceding text, following text, literal dollar), leaving any other
dollar occurrence literal. -/
def getSubstitution (matched before after : List Char) : List Char → List Char
  | [] => []
  | ['$'] => ['$']
  | '$' :: c :: rest =>
    if c = '$' then '$' :: getSubstitution matched before after rest
    else if c = '&' then matched ++ getSubstitution matched before after rest
    else if c = Char.ofNat 96 then before ++ getSubstitution matched before after rest
    else if c = '\'' then after ++ getSubstitution matched before after rest
    else '$' :: getSubstitution matched before after (c :: rest)
  | c :: rest => c :: getSubstitution matched before after rest

/-- Locate the first occurrence of `pat` in `s`, returning the text before
and after it. -/
def firstMatch (s pat : List Char) : Option (List Char × List Char) :=
  if pat.isPrefixOf s then some ([], s.drop pat.length)
  else
    match s with
    | [] => none
    | c :: rest => (firstMatch rest pat).map (fun p => (c :: p.1, p.2))

/-- JS `String.prototype.replace` with a string pattern: substitute the
first occurrence only, expanding dollar forms in the replacement; return
the string unchanged when the pattern does not occur. -/
def jsReplaceFirst (s pat rep : List Char) : List Char :=
  match firstMatch s pat with
  | none => s
  | some (before, after) => before ++ getSubstitution pat before after rep ++ after

/-- Model of `fillTemplate` of helpers.js: when the template lacks the placeholder,
append a space and the placeholder first; then replace the first
placeholder occurrence with the content. -/
def fillTemplate (template content : String) : String :=
  if ¬ jsIncludes template.toList marker.toList then
    ⟨jsReplaceFirst (template ++ " " ++ marker).toList marker.toList content.toList⟩
  else
    ⟨jsReplaceFirst template.toList marker.toList content.toList⟩

/-! ## Reaction predicates and marking (github-client.js) -/

namespace GitHubClient

/-- Model of `hasThumbsDownReaction` of github-client.js (same logic as the
api-client copy): false without reactions data, else a positive "-1"
count. -/
def hasThumbsDownReaction (comment : IssueComment) : Bool :=
  match comment.reactions with
  | none => false
  | some r => r.negOne > 0

/-- One GraphQL reaction node with its content tag. -/
structure ReactionNode where
  content : String
deriving DecidableEq

/-- The GraphQL reactions connection of a discussion comment; the `nodes`
list may be absent. -/
structure ReactionConnection where
  nodes : Option (List ReactionNode)
deriving DecidableEq

/-- A discussion comment as seen by the reaction predicates. -/
structure DiscussionComment where
  body : String
  reactions : Option ReactionConnection
deriving DecidableEq

/-- Model of `hasDiscussionThumbsDownReaction` of github-client.js: false without
reactions data or nodes list, else whether some node is a THUMBS_DOWN. -/
def hasDiscussionThumbsDownReaction (comment : DiscussionComment) : Bool :=
  match comment.reactions with
  | none => false
  | some r =>
    match r.nodes with
    | none => false
    | some nodes => nodes.any (fun reaction => reaction.content = "THUMBS_DOWN")

/-- Modelled from the spec: the external platform effect of
`addThumbsDownToIssueComment` (a REST reaction-creation call, not under
src/) — creating one thumbs-down reaction increments the comment's "-1"
reaction count. -/
def markIssueProcessed (comment : IssueComment) : IssueComment :=
  { comment with
    reactions := some ⟨((comment.reactions.map IssueReactions.negOne).getD 0) + 1⟩ }

/-- The reaction nodes attached to a discussion comment, empty when the
reactions data or nodes list is absent. -/
def reactionNodes (comment : DiscussionComment) : List ReactionNode :=
  ((comment.reactions.map ReactionConnection.nodes).getD none).getD []

/-- Modelled from the spec: the external platform effect of
`addThumbsDownToDiscussionComment` (a GraphQL addReaction mutation, not
under src/) — creating one thumbs-down reaction appends a THUMBS_DOWN
node to the comment's reaction nodes. -/
def markDiscussionProcessed (comment : DiscussionComment) : DiscussionComment :=
  { comment with
    reactions := some ⟨some (reactionNodes comment ++ [⟨"THUMBS_DOWN"⟩])⟩ }

end GitHubClient

/-! ## Specification-side restatement of the config parser

These definitions follow the words of the specification for the config
parser — each line processed independently, splitting at its first ASCII
or full-width colon, with last-occurrence-wins for name/url/type and
order-preserving accumulation for credentials — to be compared with the
code-side `parseApiConfig`. -/

/-- Split of one line at its first ASCII or full-width colon, as the
specification words it (no restriction from the regex wildcard). -/
def specLineSplit (line : List Char) : Option (List Char × List Char) :=
  if line.any isColonChar then
    some (line.takeWhile (fun c => ¬ isColonChar c),
          (line.dropWhile (fun c => ¬ isColonChar c)).tail)
  else none

/-- The cleaned (key, value) pair of a line per the specification: key
trimmed and lower-cased, value trimmed of carriage returns, surrounding
whitespace, and one layer of surrounding quote characters. -/
def specLineKV (line : List Char) : Option (List Char × List Char) :=
  (specLineSplit line).map (fun kv => (jsToLower (jsTrim kv.1), cleanValue kv.2))

/-- The name set by a line, when its key matches "name" (highest
priority). -/
def specNameVal (line : List Char) : Option String :=
  match specLineKV line with
  | some (k, v) => if jsIncludes k "name".toList then some ⟨v⟩ else none
  | none => none

/-- The url set by a line, when its key matches "url" but not "name". -/
def specUrlVal (line : List Char) : Option String :=
  match specLineKV line with
  | some (k, v) =>
    if ¬ jsIncludes k "name".toList ∧ jsIncludes k "url".toList then some ⟨v⟩
    else none
  | none => none

/-- The credential appended by a line, when its key matches "key" but
neither "name" nor "url". -/
def specKeyCred (line : List Char) : Option String :=
  match specLineKV line with
  | some (k, v) =>
    if ¬ jsIncludes k "name".toList ∧ ¬ jsIncludes k "url".toList ∧
        jsIncludes k "key".toList then some ⟨v⟩
    else none
  | none => none

/-- The type tag set by a line (lower-cased), when its key matches "type"
and none of the higher-priority keys. -/
def specTypeVal (line : List Char) : Option String :=
  match specLineKV line with
  | some (k, v) =>
    if ¬ jsIncludes k "name".toList ∧ ¬ jsIncludes k "url".toList ∧
        ¬ jsIncludes k "key".toList ∧ jsIncludes k "type".toList then
      some ⟨jsToLower v⟩
    else none
  | none => none

/-- The config parser as the specification describes it: every line is
processed independently; name, url and type take the last matching
occurrence, credentials accumulate in input order. -/
def parseApiConfigSpec (body : String) : ApiConfig :=
  let lines := splitOnChar '\n' body.toList
  { name := ((lines.filterMap specNameVal).getLast?).getD ""
    url := ((lines.filterMap specUrlVal).getLast?).getD ""
    keys := lines.filterMap specKeyCred
    type := ((lines.filterMap specTypeVal).getLast?).getD "openai" }

/-! ## List helper lemmas -/

theorem getLast?_cons_getD {α : Type} (v : α) (xs : List α) (d : α) :
    ((v :: xs).getLast?).getD d = (xs.getLast?).getD v := by
  cases xs with
  | nil => rfl
  | cons x t =>
    rw [List.getLast?_cons_cons]
    have h : (x :: t).getLast?.isSome := by
      rw [List.getLast?_isSome]
      simp
    obtain ⟨a, ha⟩ := Option.isSome_iff_exists.mp h
    rw [ha]
    rfl

theorem takeWhile_append_not {α : Type} (p : α → Bool) :
    ∀ (u : List α) (c : α) (rest : List α), (∀ x ∈ u, p x = true) → p c = false →
      (u ++ c :: rest).takeWhile p = u ∧ (u ++ c :: rest).dropWhile p = c :: rest := by
  intro u
  induction u with
  | nil =>
    intro c rest _ hc
    simp [List.takeWhile_cons, List.dropWhile_cons, hc]
  | cons a t ih =>
    intro c rest hu hc
    have ha : p a = true := hu a (by simp)
    have ht := ih c rest (fun x hx => hu x (by simp [hx])) hc
    simp [List.takeWhile_cons, List.dropWhile_cons, ha, ht.1, ht.2]

theorem splitOnChar_ne_nil (sep : Char) : ∀ cs, splitOnChar sep cs ≠ [] := by
  intro cs
  induction cs with
  | nil => simp [splitOnChar]
  | cons c rest ih =>
    by_cases h : c = sep
    · simp [splitOnChar, h]
    · simp only [splitOnChar, if_neg h]
      cases hs : splitOnChar sep rest with
      | nil => exact absurd hs ih
      | cons l ls => simp

theorem splitOnChar_mem_chars (sep : Char) :
    ∀ cs l, l ∈ splitOnChar sep cs → ∀ c ∈ l, c ∈ cs := by
  intro cs
  induction cs with
  | nil =>
    intro l hl c hc
    simp [splitOnChar] at hl
    subst hl
    simp at hc
  | cons a rest ih =>
    intro l hl c hc
    by_cases h : a = sep
    · simp only [splitOnChar, if_pos h, List.mem_cons] at hl
      rcases hl with rfl | hl
      · simp at hc
      · exact List.mem_cons_of_mem _ (ih l hl c hc)
    · simp only [splitOnChar, if_neg h] at hl
      cases hs : splitOnChar sep rest with
      | nil => exact absurd hs (splitOnChar_ne_nil sep rest)
      | cons l0 ls =>
        rw [hs] at hl
        rcases List.mem_cons.mp hl with rfl | hl2
        · rcases List.mem_cons.mp hc with rfl | hc2
          · exact List.mem_cons_self _ _
          · exact List.mem_cons_of_mem _
              (ih l0 (by rw [hs]; exact List.mem_cons_self _ _) c hc2)
        · exact List.mem_cons_of_mem _
            (ih l (by rw [hs]; exact List.mem_cons_of_mem _ hl2) c hc)

theorem splitOnChar_sep_not_mem (sep : Char) :
    ∀ cs l, l ∈ splitOnChar sep cs → sep ∉ l := by
  intro cs
  induction cs with
  | nil =>
    intro l hl
    simp [splitOnChar] at hl
    subst hl
    simp
  | cons a rest ih =>
    intro l hl
    by_cases h : a = sep
    · simp only [splitOnChar, if_pos h, List.mem_cons] at hl
      rcases hl with rfl | hl
      · simp
      · exact ih l hl
    · simp only [splitOnChar, if_neg h] at hl
      cases hs : splitOnChar sep rest with
      | nil => exact absurd hs (splitOnChar_ne_nil sep rest)
      | cons l0 ls =>
        rw [hs] at hl
        rcases List.mem_cons.mp hl with rfl | hl2
        · intro hmem
          rcases List.mem_cons.mp hmem with rfl | hc2
          · exact h rfl
          · exact ih l0 (by rw [hs]; exact List.mem_cons_self _ _) hc2
        · exact ih l (by rw [hs]; exact List.mem_cons_of_mem _ hl2)

/-! ## Fold characterization of the config parser -/

theorem lineMatch_eq_spec (line : List Char)
    (h : ∀ c ∈ line, jsDotChar c = true) :
    lineMatch line = specLineSplit line := by
  unfold lineMatch specLineSplit
  have hall : line.all jsDotChar = true := List.all_eq_true.mpr h
  by_cases hc : line.any isColonChar = true
  · simp [hall, hc]
  · simp [hall, hc]

theorem applyLine_of_none (cfg : ApiConfig) (line : List Char)
    (hdot : ∀ c ∈ line, jsDotChar c = true)
    (hsp : specLineSplit line = none) : applyLine cfg line = cfg := by
  unfold applyLine
  rw [lineMatch_eq_spec line hdot, hsp]

theorem specVals_of_none (line : List Char) (hsp : specLineSplit line = none) :
    specNameVal line = none ∧ specUrlVal line = none ∧
    specKeyCred line = none ∧ specTypeVal line = none := by
  unfold specNameVal specUrlVal specKeyCred specTypeVal specLineKV
  rw [hsp]
  exact ⟨rfl, rfl, rfl, rfl⟩

theorem foldl_applyLine_spec :
    ∀ (lines : List (List Char)) (cfg : ApiConfig),
      (∀ l ∈ lines, ∀ c ∈ l, jsDotChar c = true) →
      lines.foldl applyLine cfg =
        { name := ((lines.filterMap specNameVal).getLast?).getD cfg.name
          url := ((lines.filterMap specUrlVal).getLast?).getD cfg.url
          keys := cfg.keys ++ lines.filterMap specKeyCred
          type := ((lines.filterMap specTypeVal).getLast?).getD cfg.type } := by
  intro lines
  induction lines with
  | nil => intro cfg _; simp
  | cons l rest ih =>
    intro cfg h
    have hl := h l (List.mem_cons_self _ _)
    have hrest : ∀ l' ∈ rest, ∀ c ∈ l', jsDotChar c = true :=
      fun l' h' => h l' (List.mem_cons_of_mem _ h')
    rw [List.foldl_cons, ih (applyLine cfg l) hrest]
    cases hsp : specLineSplit l with
    | none =>
      obtain ⟨hn, hu, hk, ht⟩ := specVals_of_none l hsp
      rw [applyLine_of_none cfg l hl hsp]
      simp [List.filterMap_cons, hn, hu, hk, ht]
    | some kv =>
      obtain ⟨k0, v0⟩ := kv
      have hkv : specLineKV l = some (jsToLower (jsTrim k0), cleanValue v0) := by
        unfold specLineKV
        rw [hsp]
        rfl
      have happ : applyLine cfg l =
          (let trimmedKey := jsToLower (jsTrim k0)
           let trimmedValue := cleanValue v0
           if jsIncludes trimmedKey "name".toList then
             { cfg with name := ⟨trimmedValue⟩ }
           else if jsIncludes trimmedKey "url".toList then
             { cfg with url := ⟨trimmedValue⟩ }
           else if jsIncludes trimmedKey "key".toList then
             { cfg with keys := cfg.keys ++ [⟨trimmedValue⟩] }
           else if jsIncludes trimmedKey "type".toList then
             { cfg with type := ⟨jsToLower trimmedValue⟩ }
           else cfg) := by
        unfold applyLine
        rw [lineMatch_eq_spec l hl, hsp]
      by_cases hn : jsIncludes (jsToLower (jsTrim k0)) "name".toList = true
      · simp only [specNameVal, specUrlVal, specKeyCred, specTypeVal, hkv, hn,
          if_pos, if_true, not_true, false_and, if_false, List.filterMap_cons,
          happ, Bool.not_eq_true, and_false] at *
        simp [happ, hn, getLast?_cons_getD]
      · by_cases hu : jsIncludes (jsToLower (jsTrim k0)) "url".toList = true
        · simp only [specNameVal, specUrlVal, specKeyCred, specTypeVal, hkv,
            List.filterMap_cons, hn, hu] at *
          simp [happ, hn, hu, getLast?_cons_getD]
        · by_cases hk : jsIncludes (jsToLower (jsTrim k0)) "key".toList = true
          · simp only [specNameVal, specUrlVal, specKeyCred, specTypeVal, hkv,
              List.filterMap_cons, hn, hu, hk] at *
            simp [happ, hn, hu, hk, getLast?_cons_getD]
          · by_cases ht : jsIncludes (jsToLower (jsTrim k0)) "type".toList = true
            · simp only [specNameVal, specUrlVal, specKeyCred, specTypeVal, hkv,
                List.filterMap_cons, hn, hu, hk, ht] at *
              simp [happ, hn, hu, hk, ht, getLast?_cons_getD]
            · simp only [specNameVal, specUrlVal, specKeyCred, specTypeVal, hkv,
                List.filterMap_cons, hn, hu, hk, ht] at *
              simp [happ, hn, hu, hk, ht]

/-! ## Claim C5 — config parser line processing -/

/-- C5 (amended).  For every input string free of carriage returns and of
the Unicode line/paragraph separators, the config parser processes each
line independently exactly as described: split at the first ASCII or
full-width colon, value cleaned of carriage returns, surrounding
whitespace and one layer of surrounding quotes, keys matched
case-insensitively by substring in the priority name, url, key, type,
name/url taking the last occurrence, key lines appending in order, other
lines ignored, and no failure is possible (the parser is a total
function).  Lines containing a carriage return or line separator never
match the line pattern and are ignored, which is what the counterexample
exhibits. -/
theorem parseApiConfig_line_independent :
    ∀ body : String,
      (∀ c ∈ body.toList, c ≠ '\r' ∧ c ≠ ' ' ∧ c ≠ ' ') →
      parseApiConfig body = parseApiConfigSpec body := by
  intro body h
  unfold parseApiConfig parseApiConfigSpec
  have hdot : ∀ l ∈ splitOnChar '\n' body.toList, ∀ c ∈ l, jsDotChar c = true := by
    intro l hl c hc
    have hmem := splitOnChar_mem_chars '\n' body.toList l hl c hc
    have hsep := splitOnChar_sep_not_mem '\n' body.toList l hl
    have hne : c ≠ '\n' := fun hceq => hsep (hceq ▸ hc)
    obtain ⟨h1, h2, h3⟩ := h c hmem
    simp [jsDotChar, hne, h1, h2, h3]
  rw [foldl_applyLine_spec _ initialConfig hdot]
  rfl

/-- Witness for C5 at a concrete carriage-return-free body. -/
theorem parseApiConfig_line_independent_witness :
    (∀ c ∈ ("name: A\nkey: K1\nkey: K2" : String).toList,
        c ≠ '\r' ∧ c ≠ ' ' ∧ c ≠ ' ') ∧
    parseApiConfig "name: A\nkey: K1\nkey: K2" =
      parseApiConfigSpec "name: A\nkey: K1\nkey: K2" :=
  ⟨by decide, parseApiConfig_line_independent _ (by decide)⟩

/-- Counterexample to C5 as stated: the line "key: x" followed by a
carriage return contains a colon, and the claimed per-line behaviour
would append the credential "x", but the code's regex wildcard cannot
match the carriage return, so the whole line is silently ignored. -/
theorem parseApiConfig_cr_line_cex :
    parseApiConfig "key: x\r" ≠ parseApiConfigSpec "key: x\r" ∧
    (parseApiConfig "key: x\r").keys = [] ∧
    (parseApiConfigSpec "key: x\r").keys = ["x"] := by decide

/-! ## Claim C4 — batch extraction -/

theorem extractLoop_eq :
    ∀ cs, extractLoop cs =
      (cs.filter (fun c => !hasThumbsDownReaction c &&
          isCompleteConfig (parseApiConfig c.body))).map
        (fun c => parseApiConfig c.body) := by
  intro cs
  induction cs with
  | nil => rfl
  | cons c rest ih =>
    by_cases h1 : hasThumbsDownReaction c = true
    · simp [extractLoop, h1, List.filter_cons, ih]
    · by_cases h2 : isCompleteConfig (parseApiConfig c.body) = true
      · simp [extractLoop, h1, h2, List.filter_cons, ih]
      · simp [extractLoop, h1, h2, List.filter_cons, ih]

/-- C4.  Batch config extraction works on the comments sorted by creation
time ascending (a permutation of the input), skips every comment carrying
a thumbs-down reaction, and returns exactly the parsed configs that have
a non-empty name, a non-empty endpoint and at least one credential, in
that sorted order. -/
theorem extractApiConfigs_spec :
    ∀ comments : List IssueComment,
      extractApiConfigs comments =
        ((sortComments comments).filter
            (fun c => !hasThumbsDownReaction c &&
              isCompleteConfig (parseApiConfig c.body))).map
          (fun c => parseApiConfig c.body) ∧
      List.Pairwise byCreated (sortComments comments) ∧
      (sortComments comments).Perm comments ∧
      ∀ cfg ∈ extractApiConfigs comments,
        cfg.name ≠ "" ∧ cfg.url ≠ "" ∧ cfg.keys ≠ [] := by
  intro comments
  refine ⟨extractLoop_eq _, ?_, ?_, ?_⟩
  · exact List.sorted_insertionSort byCreated comments
  · exact List.perm_insertionSort byCreated comments
  · intro cfg hcfg
    unfold extractApiConfigs at hcfg
    rw [extractLoop_eq] at hcfg
    obtain ⟨c, hc, rfl⟩ := List.mem_map.mp hcfg
    have hfil := (List.mem_filter.mp hc).2
    simp only [Bool.and_eq_true, isCompleteConfig, decide_eq_true_eq] at hfil
    exact ⟨hfil.2.2.1, hfil.2.1, List.ne_nil_of_length_pos hfil.2.2.2⟩

/-- Witness for C4 at a concrete comment list: an unreacted complete
config, a thumbs-down-reacted comment and an incomplete one, delivered in
descending creation order. -/
theorem extractApiConfigs_spec_witness :
    extractApiConfigs
        [⟨9, "name: B\nurl: ub\nkey: kb", none⟩,
         ⟨5, "name: A\nurl: ua\nkey: ka", some ⟨1⟩⟩,
         ⟨1, "name: C", none⟩] =
      [⟨"B", "ub", ["kb"], "openai"⟩] ∧
    (⟨"B", "ub", ["kb"], "openai"⟩ : ApiConfig).name ≠ "" := by
  constructor
  · decide
  · exact ((extractApiConfigs_spec
      [⟨9, "name: B\nurl: ub\nkey: kb", none⟩,
       ⟨5, "name: A\nurl: ua\nkey: ka", some ⟨1⟩⟩,
       ⟨1, "name: C", none⟩]).2.2.2
      ⟨"B", "ub", ["kb"], "openai"⟩ (by decide)).1

/-! ## Claim C1 — failover order scenario -/

/-- C1.  With configs A (credentials k1, k2) and B (credential k3), where
the attempts with k1 and k2 fail and the attempt with k3 succeeds, the
invoker returns B's normalized result and performs exactly the three
attempts k1, k2, k3 in that order — outer loop over configs in list
order, inner loop over that config's credentials in list order. -/
theorem callLlmApi_failover_order :
    ∀ (net : Net) (nameA urlA typeA nameB urlB typeB k1 k2 k3 prompt : String)
      (e1 e2 : String) (resp : ApiResponse),
      net (buildRequest ⟨nameA, urlA, [k1, k2], typeA⟩
        (formatApiRequest prompt ⟨nameA, urlA, [k1, k2], typeA⟩) k1) = .error e1 →
      net (buildRequest ⟨nameA, urlA, [k1, k2], typeA⟩
        (formatApiRequest prompt ⟨nameA, urlA, [k1, k2], typeA⟩) k2) = .error e2 →
      net (buildRequest ⟨nameB, urlB, [k3], typeB⟩
        (formatApiRequest prompt ⟨nameB, urlB, [k3], typeB⟩) k3) = .ok resp →
      callLlmApi net [⟨nameA, urlA, [k1, k2], typeA⟩, ⟨nameB, urlB, [k3], typeB⟩] prompt =
        (.success (extractGeneratedText resp typeB),
         [⟨⟨nameA, urlA, [k1, k2], typeA⟩, k1,
           buildRequest ⟨nameA, urlA, [k1, k2], typeA⟩
             (formatApiRequest prompt ⟨nameA, urlA, [k1, k2], typeA⟩) k1⟩,
          ⟨⟨nameA, urlA, [k1, k2], typeA⟩, k2,
           buildRequest ⟨nameA, urlA, [k1, k2], typeA⟩
             (formatApiRequest prompt ⟨nameA, urlA, [k1, k2], typeA⟩) k2⟩,
          ⟨⟨nameB, urlB, [k3], typeB⟩, k3,
           buildRequest ⟨nameB, urlB, [k3], typeB⟩
             (formatApiRequest prompt ⟨nameB, urlB, [k3], typeB⟩) k3⟩]) := by
  intro net nameA urlA typeA nameB urlB typeB k1 k2 k3 prompt e1 e2 resp h1 h2 h3
  simp [callLlmApi, tryConfigsLoop, tryKeysLoop, h1, h2, h3]

/-- Witness for C1 at a concrete oracle that fails on bearer keys k1, k2
and succeeds on k3. -/
theorem callLlmApi_failover_order_witness :
    callLlmApi
        (fun r => if r.bearer = some "k3" then
            .ok ⟨[], [⟨some ⟨some "B-says"⟩, none⟩], "raw"⟩
          else .error "bad key")
        [⟨"A", "uA", ["k1", "k2"], "openai"⟩, ⟨"B", "uB", ["k3"], "openai"⟩]
        "p" =
      (.success (.str "B-says"),
       [⟨⟨"A", "uA", ["k1", "k2"], "openai"⟩, "k1", ⟨"uA", some "k1", .openaiBody "A" "p"⟩⟩,
        ⟨⟨"A", "uA", ["k1", "k2"], "openai"⟩, "k2", ⟨"uA", some "k2", .openaiBody "A" "p"⟩⟩,
        ⟨⟨"B", "uB", ["k3"], "openai"⟩, "k3", ⟨"uB", some "k3", .openaiBody "B" "p"⟩⟩]) := by
  have h := callLlmApi_failover_order
    (fun r => if r.bearer = some "k3" then
        .ok ⟨[], [⟨some ⟨some "B-says"⟩, none⟩], "raw"⟩
      else .error "bad key")
    "A" "uA" "openai" "B" "uB" "openai" "k1" "k2" "k3" "p" "bad key" "bad key"
    ⟨[], [⟨some ⟨some "B-says"⟩, none⟩], "raw"⟩ rfl rfl rfl
  exact h.trans (by decide)

/-! ## Claim C2 — at most one successful call -/

theorem tryKeysLoop_trace (net : Net) (c : ApiConfig) (rd : RequestData) :
    ∀ (keys : List String) (le : Option String) (tr : List Attempt)
      (res : Option JsValue) (le2 : Option String),
      tryKeysLoop net c rd le keys = (tr, res, le2) →
      (res = none → ∀ a ∈ tr, ∀ resp, net a.req ≠ .ok resp) ∧
      ∀ v, res = some v →
        ∃ a resp, tr.getLast? = some a ∧ net a.req = .ok resp ∧
          v = extractGeneratedText resp a.config.type ∧
          ∀ b ∈ tr.dropLast, ∀ r2, net b.req ≠ .ok r2 := by
  intro keys
  induction keys with
  | nil =>
    intro le tr res le2 h
    simp only [tryKeysLoop, Prod.mk.injEq] at h
    obtain ⟨h1, h2, h3⟩ := h
    subst h1
    subst h2
    subst h3
    exact ⟨fun _ a ha => absurd ha (List.not_mem_nil a), fun v hv => by simp at hv⟩
  | cons k ks ih =>
    intro le tr res le2 h
    cases hnet : net (buildRequest c rd k) with
    | ok resp =>
      simp only [tryKeysLoop, hnet, Prod.mk.injEq] at h
      obtain ⟨h1, h2, h3⟩ := h
      subst h1
      subst h2
      subst h3
      refine ⟨fun hn => by simp at hn, fun v hv => ?_⟩
      refine ⟨⟨c, k, buildRequest c rd k⟩, resp, rfl, hnet, ?_, ?_⟩
      · simpa using hv.symm
      · intro b hb
        simp at hb
    | error e =>
      rcases hrec : tryKeysLoop net c rd (some e) ks with ⟨tr1, res1, le1⟩
      simp only [tryKeysLoop, hnet, hrec, Prod.mk.injEq] at h
      obtain ⟨h1, h2, h3⟩ := h
      subst h1
      subst h2
      subst h3
      obtain ⟨ihfail, ihsucc⟩ := ih (some e) tr1 res1 le1 hrec
      constructor
      · intro hn a ha resp hok
        rcases List.mem_cons.mp ha with rfl | ha2
        · rw [hok] at hnet
          exact Except.noConfusion hnet
        · exact ihfail hn a ha2 resp hok
      · intro v hv
        obtain ⟨a, resp, hlast, hok, hval, hdrop⟩ := ihsucc v hv
        have hne : tr1 ≠ [] := by
          intro hnil
          rw [hnil] at hlast
          exact Option.noConfusion hlast
        cases tr1 with
        | nil => exact absurd rfl hne
        | cons b bs =>
          refine ⟨a, resp, ?_, hok, hval, ?_⟩
          · rw [List.getLast?_cons_cons]
            exact hlast
          · intro b2 hb2 r2 hok2
            rw [List.dropLast_cons₂] at hb2
            rcases List.mem_cons.mp hb2 with rfl | hb3
            · rw [hok2] at hnet
              exact Except.noConfusion hnet
            · exact hdrop b2 hb3 r2 hok2

theorem tryConfigsLoop_trace (net : Net) (prompt : String) :
    ∀ (configs : List ApiConfig) (le : Option String) (tr : List Attempt)
      (res : Option JsValue) (le2 : Option String),
      tryConfigsLoop net prompt le configs = (tr, res, le2) →
      (res = none → ∀ a ∈ tr, ∀ resp, net a.req ≠ .ok resp) ∧
      ∀ v, res = some v →
        ∃ a resp, tr.getLast? = some a ∧ net a.req = .ok resp ∧
          v = extractGeneratedText resp a.config.type ∧
          ∀ b ∈ tr.dropLast, ∀ r2, net b.req ≠ .ok r2 := by
  intro configs
  induction configs with
  | nil =>
    intro le tr res le2 h
    simp only [tryConfigsLoop, Prod.mk.injEq] at h
    obtain ⟨h1, h2, h3⟩ := h
    subst h1
    subst h2
    subst h3
    exact ⟨fun _ a ha => absurd ha (List.not_mem_nil a), fun v hv => by simp at hv⟩
  | cons c rest ih =>
    intro le tr res le2 h
    rcases hk : tryKeysLoop net c (formatApiRequest prompt c) le c.keys
      with ⟨tr1, res1, le1⟩
    obtain ⟨kfail, ksucc⟩ :=
      tryKeysLoop_trace net c (formatApiRequest prompt c) c.keys le tr1 res1 le1 hk
    cases res1 with
    | some v1 =>
      simp only [tryConfigsLoop, hk, Prod.mk.injEq] at h
      obtain ⟨h1, h2, h3⟩ := h
      subst h1
      subst h2
      subst h3
      exact ⟨fun hn => by simp at hn,
        fun v hv => ksucc v (by simpa using hv)⟩
    | none =>
      rcases hrec : tryConfigsLoop net prompt le1 rest with ⟨tr2, res2, le2b⟩
      simp only [tryConfigsLoop, hk, hrec, Prod.mk.injEq] at h
      obtain ⟨h1, h2, h3⟩ := h
      subst h1
      subst h2
      subst h3
      obtain ⟨ihfail, ihsucc⟩ := ih le1 tr2 res2 le2b hrec
      constructor
      · intro hn a ha resp hok
        rcases List.mem_append.mp ha with ha1 | ha2
        · exact kfail rfl a ha1 resp hok
        · exact ihfail hn a ha2 resp hok
      · intro v hv
        obtain ⟨a, resp, hlast, hok, hval, hdrop⟩ := ihsucc v hv
        have hne : tr2 ≠ [] := by
          intro hnil
          rw [hnil] at hlast
          exact Option.noConfusion hlast
        refine ⟨a, resp, ?_, hok, hval, ?_⟩
        · rw [List.getLast?_append, hlast]
          rfl
        · intro b hb r2 hok2
          rw [List.dropLast_append, if_neg (by simpa using hne)] at hb
          rcases List.mem_append.mp hb with hb1 | hb2
          · exact kfail rfl b hb1 r2 hok2
          · exact hdrop b hb2 r2 hok2

/-- C2.  For every oracle, config list and prompt, the invoker makes at
most one successful network attempt: the trace contains at most one
attempt whose request succeeds, and any successful attempt is the last
one made, with the function returning exactly that attempt's normalized
text — no further credential or config is tried after a success. -/
theorem callLlmApi_at_most_one_success :
    ∀ (net : Net) (configs : List ApiConfig) (prompt : String),
      ((callLlmApi net configs prompt).2.countP
          (fun a => (net a.req).isOk)) ≤ 1 ∧
      ∀ a ∈ (callLlmApi net configs prompt).2, ∀ resp, net a.req = .ok resp →
        (callLlmApi net configs prompt).2.getLast? = some a ∧
        (callLlmApi net configs prompt).1 =
          .success (extractGeneratedText resp a.config.type) := by
  intro net configs prompt
  by_cases hempty : configs.isEmpty
  · simp [callLlmApi, hempty]
  · rcases hcl : tryConfigsLoop net prompt none configs with ⟨tr, res, le⟩
    obtain ⟨cfail, csucc⟩ := tryConfigsLoop_trace net prompt configs none tr res le hcl
    cases res with
    | none =>
      have hc : callLlmApi net configs prompt = (.allFailed le, tr) := by
        simp [callLlmApi, hempty, hcl]
      rw [hc]
      constructor
      · have hz : tr.countP (fun a => (net a.req).isOk) = 0 := by
          rw [List.countP_eq_zero]
          intro a ha
          cases hr : net a.req with
          | ok resp => exact absurd hr (cfail rfl a ha resp)
          | error e => simp [Except.isOk, Except.toBool]
        simp [hz]
      · intro a ha resp hok
        exact absurd hok (cfail rfl a ha resp)
    | some v =>
      have hc : callLlmApi net configs prompt = (.success v, tr) := by
        simp [callLlmApi, hempty, hcl]
      rw [hc]
      obtain ⟨a0, resp0, hlast, hok0, hval, hdrop⟩ := csucc v rfl
      have hne : tr ≠ [] := by
        intro hnil
        rw [hnil] at hlast
        exact Option.noConfusion hlast
      have hgl : tr.getLast hne = a0 := by
        have h2 := List.getLast?_eq_getLast tr hne
        exact Option.some_inj.mp (h2.symm.trans hlast)
      have hsplit : tr.dropLast ++ [a0] = tr := by
        rw [← hgl]
        exact List.dropLast_append_getLast hne
      constructor
      · have hz : tr.dropLast.countP (fun a => (net a.req).isOk) = 0 := by
          rw [List.countP_eq_zero]
          intro b hb
          cases hr : net b.req with
          | ok r2 => exact absurd hr (hdrop b hb r2)
          | error e => simp [Except.isOk, Except.toBool]
        rw [← hsplit, List.countP_append, hz]
        simp only [List.countP_cons, List.countP_nil]
        split <;> simp
      · intro a ha resp hok
        rcases List.mem_append.mp (hsplit ▸ ha) with hb | hone
        · exact absurd hok (hdrop a hb resp)
        · have haeq : a = a0 := by simpa using hone
          subst haeq
          have hre : resp = resp0 := Except.ok.inj (hok.symm.trans hok0)
          refine ⟨hlast, ?_⟩
          rw [hval, hre]

/-- Witness for C2: a single config and key with a succeeding oracle; the
successful attempt is the last (only) one and its normalized text is
returned. -/
theorem callLlmApi_at_most_one_success_witness :
    (callLlmApi (fun _ => .ok ⟨[], [], "R"⟩)
        [⟨"m", "u", ["k"], "openai"⟩] "p").2.getLast? =
      some ⟨⟨"m", "u", ["k"], "openai"⟩, "k", ⟨"u", some "k", .openaiBody "m" "p"⟩⟩ ∧
    (callLlmApi (fun _ => .ok ⟨[], [], "R"⟩)
        [⟨"m", "u", ["k"], "openai"⟩] "p").1 = .success (.str "R") := by
  have h := (callLlmApi_at_most_one_success (fun _ => .ok ⟨[], [], "R"⟩)
      [⟨"m", "u", ["k"], "openai"⟩] "p").2
    ⟨⟨"m", "u", ["k"], "openai"⟩, "k", ⟨"u", some "k", .openaiBody "m" "p"⟩⟩
    (by decide) ⟨[], [], "R"⟩ rfl
  exact ⟨h.1, h.2.trans (by decide)⟩

/-! ## Claim C3 — all credentials fail -/

/-- The error message carried by a failed oracle answer. -/
def errOf (e : Except String ApiResponse) : Option String :=
  match e with
  | .error msg => some msg
  | .ok _ => none

/-- The last observed error over a trace: the error of the last attempt,
or the incoming value when no attempt was made. -/
def lastAttemptError (net : Net) (le : Option String) (tr : List Attempt) :
    Option String :=
  match tr.getLast? with
  | none => le
  | some a => errOf (net a.req)

theorem lastAttemptError_append (net : Net) (le : Option String)
    (t1 t2 : List Attempt) :
    lastAttemptError net le (t1 ++ t2) =
      lastAttemptError net (lastAttemptError net le t1) t2 := by
  unfold lastAttemptError
  rw [List.getLast?_append]
  cases h2 : t2.getLast? with
  | some a => simp [Option.or]
  | none => simp [Option.or]

theorem tryKeysLoop_allfail (net : Net) (c : ApiConfig) (rd : RequestData) :
    ∀ (keys : List String) (le : Option String),
      (∀ k ∈ keys, ∃ e, net (buildRequest c rd k) = .error e) →
      tryKeysLoop net c rd le keys =
        (keys.map (fun k => ⟨c, k, buildRequest c rd k⟩), none,
         lastAttemptError net le
           (keys.map (fun k => (⟨c, k, buildRequest c rd k⟩ : Attempt)))) := by
  intro keys
  induction keys with
  | nil => intro le _; rfl
  | cons k ks ih =>
    intro le h
    obtain ⟨e, he⟩ := h k (List.mem_cons_self _ _)
    have hks : ∀ k2 ∈ ks, ∃ e2, net (buildRequest c rd k2) = .error e2 :=
      fun k2 hk2 => h k2 (List.mem_cons_of_mem _ hk2)
    have hle : lastAttemptError net (some e)
        (ks.map (fun k => (⟨c, k, buildRequest c rd k⟩ : Attempt))) =
        lastAttemptError net le
          ((⟨c, k, buildRequest c rd k⟩ : Attempt) ::
            ks.map (fun k => (⟨c, k, buildRequest c rd k⟩ : Attempt))) := by
      cases ks with
      | nil => simp [lastAttemptError, errOf, he]
      | cons k2 ks2 =>
        have hs : ((k2 :: ks2).map
            (fun k => (⟨c, k, buildRequest c rd k⟩ : Attempt))).getLast?.isSome := by
          rw [List.getLast?_isSome]
          simp
        obtain ⟨a, ha⟩ := Option.isSome_iff_exists.mp hs
        rw [List.map_cons] at ha
        unfold lastAttemptError
        rw [List.map_cons, List.getLast?_cons_cons, ha]
    simp only [tryKeysLoop, he, ih (some e) hks, List.map_cons, Prod.mk.injEq]
    exact ⟨trivial, trivial, hle⟩

theorem tryConfigsLoop_allfail (net : Net) (prompt : String) :
    ∀ (configs : List ApiConfig) (le : Option String),
      (∀ c ∈ configs, ∀ k ∈ c.keys, ∃ e,
          net (buildRequest c (formatApiRequest prompt c) k) = .error e) →
      tryConfigsLoop net prompt le configs =
        (configs.flatMap (fun c => c.keys.map
            (fun k => ⟨c, k, buildRequest c (formatApiRequest prompt c) k⟩)),
         none,
         lastAttemptError net le
           (configs.flatMap (fun c => c.keys.map
             (fun k => ⟨c, k, buildRequest c (formatApiRequest prompt c) k⟩)))) := by
  intro configs
  induction configs with
  | nil => intro le _; rfl
  | cons c rest ih =>
    intro le h
    have hc := h c (List.mem_cons_self _ _)
    have hrest : ∀ c2 ∈ rest, ∀ k ∈ c2.keys, ∃ e,
        net (buildRequest c2 (formatApiRequest prompt c2) k) = .error e :=
      fun c2 hc2 => h c2 (List.mem_cons_of_mem _ hc2)
    simp only [tryConfigsLoop,
      tryKeysLoop_allfail net c (formatApiRequest prompt c) c.keys le hc,
      ih _ hrest, List.flatMap_cons, Prod.mk.injEq]
    exact ⟨trivial, trivial, (lastAttemptError_append net le _ _).symm⟩

/-- C3.  When every credential of every config fails, the invoker ends
with the all-providers-failed error carrying the last observed error (the
error of the final attempt), having attempted every credential of every
config in order, so that the attempt count is the sum of the credential
list lengths over all configs. -/
theorem callLlmApi_all_fail :
    ∀ (net : Net) (configs : List ApiConfig) (prompt : String),
      configs ≠ [] →
      (∀ c ∈ configs, ∀ k ∈ c.keys, ∃ e,
          net (buildRequest c (formatApiRequest prompt c) k) = .error e) →
      callLlmApi net configs prompt =
        (.allFailed (lastAttemptError net none
            (configs.flatMap (fun c => c.keys.map
              (fun k => ⟨c, k, buildRequest c (formatApiRequest prompt c) k⟩)))),
         configs.flatMap (fun c => c.keys.map
           (fun k => ⟨c, k, buildRequest c (formatApiRequest prompt c) k⟩))) ∧
      (callLlmApi net configs prompt).2.length =
        (configs.map (fun c => c.keys.length)).sum := by
  intro net configs prompt hne h
  have hempty : configs.isEmpty = false := by
    cases configs with
    | nil => exact absurd rfl hne
    | cons c rest => rfl
  have hloop := tryConfigsLoop_allfail net prompt configs none h
  have hc : callLlmApi net configs prompt =
      (.allFailed (lastAttemptError net none
          (configs.flatMap (fun c => c.keys.map
            (fun k => ⟨c, k, buildRequest c (formatApiRequest prompt c) k⟩)))),
       configs.flatMap (fun c => c.keys.map
         (fun k => ⟨c, k, buildRequest c (formatApiRequest prompt c) k⟩))) := by
    simp [callLlmApi, hempty, hloop]
  refine ⟨hc, ?_⟩
  rw [hc]
  rw [List.length_flatMap]
  congr 1
  apply List.map_congr_left
  intro c _
  simp [List.length_map]

/-- Witness for C3: two configs with three credentials in total, an
oracle that always fails with "E". -/
theorem callLlmApi_all_fail_witness :
    callLlmApi (fun _ => .error "E")
        [⟨"A", "u1", ["k1", "k2"], "openai"⟩, ⟨"B", "u2", ["k3"], "gemini"⟩]
        "p" =
      (.allFailed (some "E"),
       [⟨⟨"A", "u1", ["k1", "k2"], "openai"⟩, "k1",
         ⟨"u1", some "k1", .openaiBody "A" "p"⟩⟩,
        ⟨⟨"A", "u1", ["k1", "k2"], "openai"⟩, "k2",
         ⟨"u1", some "k2", .openaiBody "A" "p"⟩⟩,
        ⟨⟨"B", "u2", ["k3"], "gemini"⟩, "k3",
         ⟨"u2?key=k3", none, .geminiBody "p"⟩⟩]) ∧
    (callLlmApi (fun _ => .error "E")
        [⟨"A", "u1", ["k1", "k2"], "openai"⟩, ⟨"B", "u2", ["k3"], "gemini"⟩]
        "p").2.length = 3 := by
  have h := callLlmApi_all_fail (fun _ => .error "E")
    [⟨"A", "u1", ["k1", "k2"], "openai"⟩, ⟨"B", "u2", ["k3"], "gemini"⟩] "p"
    (by decide) (fun c _ k _ => ⟨"E", rfl⟩)
  exact ⟨h.1.trans (by decide), h.2.trans (by decide)⟩

/-! ## Claim C8 — Gemini response without candidates -/

/-- C8 (amended).  For a Gemini-kind provider, when the network call
succeeds but the response contains no candidates (e.g. because of safety
filtering), the attempt is treated as a SUCCESS, not as an extraction
failure: the invoker logs a warning and returns the JSON-stringified raw
response as the result, performing no further attempts against any
remaining credential or config and raising no fault. -/
theorem callLlmApi_gemini_no_candidates :
    ∀ (net : Net) (c : ApiConfig) (rest : List ApiConfig)
      (prompt k : String) (ks : List String) (resp : ApiResponse),
      c.type = "gemini" → c.keys = k :: ks →
      net (buildRequest c (formatApiRequest prompt c) k) = .ok resp →
      resp.candidates = [] →
      callLlmApi net (c :: rest) prompt =
        (.success (.str resp.raw),
         [⟨c, k, buildRequest c (formatApiRequest prompt c) k⟩]) := by
  intro net c rest prompt k ks resp htype hkeys hnet hcand
  have hext : extractGeneratedText resp c.type = .str resp.raw := by
    rw [htype]
    unfold extractGeneratedText
    rw [if_pos rfl, hcand]
  simp [callLlmApi, tryConfigsLoop, tryKeysLoop, hkeys, hnet, hext]

/-- Witness for C8: one Gemini config with a second config behind it; a
candidate-less response is returned as the stringified raw text after a
single attempt. -/
theorem callLlmApi_gemini_no_candidates_witness :
    callLlmApi (fun _ => .ok ⟨[], [], "RAW"⟩)
        [⟨"m", "u", ["k"], "gemini"⟩, ⟨"n", "v", ["k2"], "openai"⟩] "p" =
      (.success (.str "RAW"),
       [⟨⟨"m", "u", ["k"], "gemini"⟩, "k", ⟨"u?key=k", none, .geminiBody "p"⟩⟩]) := by
  have h := callLlmApi_gemini_no_candidates (fun _ => .ok ⟨[], [], "RAW"⟩)
    ⟨"m", "u", ["k"], "gemini"⟩ [⟨"n", "v", ["k2"], "openai"⟩]
    "p" "k" [] ⟨[], [], "RAW"⟩ rfl rfl rfl rfl
  exact h.trans (by decide)

/-- Counterexample to C8 as stated: with a Gemini config whose (single)
successful attempt yields a response with no candidates, the invoker does
NOT fall through to the next credential or config — it returns the
stringified raw response as a success after exactly one attempt, even
though a second config with another credential was available. -/
theorem callLlmApi_gemini_no_candidates_cex :
    callLlmApi (fun _ => .ok ⟨[], [], "RAW"⟩)
        [⟨"m", "u", ["k"], "gemini"⟩, ⟨"n", "v", ["k2"], "openai"⟩] "p" =
      (.success (.str "RAW"),
       [⟨⟨"m", "u", ["k"], "gemini"⟩, "k", ⟨"u?key=k", none, .geminiBody "p"⟩⟩]) ∧
    (callLlmApi (fun _ => .ok ⟨[], [], "RAW"⟩)
        [⟨"m", "u", ["k"], "gemini"⟩, ⟨"n", "v", ["k2"], "openai"⟩] "p").2.length
      = 1 := by decide

/-! ## Claim C6 — prompt extractor -/

/-- C6.  The prompt extractor returns a record exactly when the text
begins at position 0 with a nonempty word-character token continued by
the literal suffix "Prompt" and followed immediately by an ASCII or
full-width colon; the record's kind is that token and its content is the
trimmed remainder.  A pattern occurrence later than position 0 (as in
"hello SummaryPrompt: x") or no occurrence yields none, never an error,
and "FooPrompt:" yields the empty content. -/
theorem extractPrompt_spec :
    (∀ (body : String) (r : PromptRecord),
      extractPrompt body = some r ↔
        ∃ (u : List Char) (c : Char) (rest : List Char),
          body.toList = u ++ promptSuffix ++ c :: rest ∧ u ≠ [] ∧
          (∀ ch ∈ u, isWordChar ch = true) ∧ isColonChar c = true ∧
          r = ⟨⟨u ++ promptSuffix⟩, ⟨jsTrim rest⟩⟩) ∧
    extractPrompt "hello SummaryPrompt: x" = none ∧
    extractPrompt "FooPrompt:" = some ⟨"FooPrompt", ""⟩ := by
  refine ⟨?_, by decide, by decide⟩
  intro body r
  constructor
  · intro h
    simp only [extractPrompt] at h
    split at h
    · exact absurd h (by simp)
    · rename_i c tail hdw
      split at h
      · rename_i hcond
        obtain ⟨hcol, hlen, hdrop⟩ := hcond
        rw [Option.some.injEq] at h
        refine ⟨(body.toList.takeWhile isWordChar).take
            ((body.toList.takeWhile isWordChar).length - 6), c, tail, ?_, ?_, ?_, hcol, ?_⟩
        · rw [← hdrop, List.take_append_drop, ← hdw,
            List.takeWhile_append_dropWhile]
        · intro hnil
          rcases List.take_eq_nil_iff.mp hnil with h0 | h0
          · omega
          · rw [h0] at hlen
            simp at hlen
        · intro ch hch
          exact List.mem_takeWhile_imp (List.take_subset _ _ hch)
        · rw [← hdrop, List.take_append_drop]
          exact h.symm
      · exact absurd h (by simp)
  · intro hex
    obtain ⟨u, c, rest, hbody, hune, huw, hcol, hr⟩ := hex
    have hsw : ∀ ch ∈ u ++ promptSuffix, isWordChar ch = true := by
      intro ch hch
      rcases List.mem_append.mp hch with h1 | h2
      · exact huw ch h1
      · have hps : ∀ ch2 ∈ promptSuffix, isWordChar ch2 = true := by decide
        exact hps ch h2
    have hcw : isWordChar c = false := by
      have hor : c = ':' ∨ c = '：' := by simpa [isColonChar] using hcol
      rcases hor with rfl | rfl <;> decide
    have hsplit := takeWhile_append_not isWordChar (u ++ promptSuffix) c rest hsw hcw
    have hlen : (u ++ promptSuffix).length = u.length + 6 := by
      simp [promptSuffix]
    have hl6 : 6 < (u ++ promptSuffix).length := by
      rw [hlen]
      have := List.length_pos.mpr hune
      omega
    have hdropeq : (u ++ promptSuffix).drop ((u ++ promptSuffix).length - 6) =
        promptSuffix := by
      rw [hlen]
      have h2 : u.length + 6 - 6 = u.length := by omega
      rw [h2]
      exact List.drop_left u promptSuffix
    simp only [extractPrompt, hbody, hsplit.1, hsplit.2]
    rw [if_pos ⟨hcol, hl6, hdropeq⟩, hr]

/-- Witness for C6: the anchored match on a concrete body. -/
theorem extractPrompt_spec_witness :
    extractPrompt "SummaryPrompt: hello" = some ⟨"SummaryPrompt", "hello"⟩ :=
  (extractPrompt_spec.1 "SummaryPrompt: hello" ⟨"SummaryPrompt", "hello"⟩).mpr
    ⟨"Summary".toList, ':', " hello".toList, by decide, by decide,
     by decide, by decide, by decide⟩

/-! ## Claim C7 — template filler -/

theorem getSubstitution_no_dollar (m b a : List Char) :
    ∀ rep : List Char, '$' ∉ rep → getSubstitution m b a rep = rep := by
  intro rep
  induction rep with
  | nil => intro _; rfl
  | cons c rest ih =>
    intro h
    have hc : c ≠ '$' := fun hh => h (hh ▸ List.mem_cons_self _ _)
    have hrest : '$' ∉ rest := fun hh => h (List.mem_cons_of_mem _ hh)
    cases rest with
    | nil => simp [getSubstitution, hc]
    | cons c2 rest2 => simp [getSubstitution, hc, ih hrest]

theorem firstMatch_isSome (pat : List Char) :
    ∀ s : List Char, jsIncludes s pat = (firstMatch s pat).isSome := by
  intro s
  induction s with
  | nil =>
    cases pat with
    | nil => rfl
    | cons p ps => rfl
  | cons c t ih =>
    by_cases hp : pat.isPrefixOf (c :: t) = true
    · simp [jsIncludes, firstMatch, hp]
    · simp only [Bool.not_eq_true] at hp
      simp [jsIncludes, firstMatch, hp, ih]

theorem firstMatch_decomp (pat : List Char) :
    ∀ s b a, firstMatch s pat = some (b, a) → s = b ++ pat ++ a := by
  intro s
  induction s with
  | nil =>
    intro b a h
    simp only [firstMatch] at h
    split at h
    · rename_i hp
      have hpre0 := List.isPrefixOf_iff_prefix.mp hp
      have hpnil : pat = [] := List.prefix_nil.mp hpre0
      rw [Option.some.injEq, Prod.mk.injEq] at h
      obtain ⟨hb, ha⟩ := h
      subst hpnil
      rw [← hb, ← ha]
      rfl
    · exact absurd h (by simp)
  | cons c t ih =>
    intro b a h
    simp only [firstMatch] at h
    split at h
    · rename_i hp
      rw [Option.some.injEq, Prod.mk.injEq] at h
      obtain ⟨hb, ha⟩ := h
      obtain ⟨r, hr⟩ := List.isPrefixOf_iff_prefix.mp hp
      rw [← hb, ← ha, ← hr, List.nil_append, List.drop_left]
    · rw [Option.map_eq_some'] at h
      obtain ⟨⟨b0, a0⟩, hfm, hf⟩ := h
      rw [Prod.mk.injEq] at hf
      obtain ⟨hb, ha⟩ := hf
      have ht := ih b0 a0 hfm
      rw [← hb, ← ha, ht]
      rfl

theorem firstMatch_minimal (pat : List Char) :
    ∀ s b a, firstMatch s pat = some (b, a) →
      ∀ b2 a2, s = b2 ++ pat ++ a2 → b.length ≤ b2.length := by
  intro s
  induction s with
  | nil =>
    intro b a h b2 a2 _
    simp only [firstMatch] at h
    split at h
    · rw [Option.some.injEq, Prod.mk.injEq] at h
      rw [← h.1]
      simp
    · exact absurd h (by simp)
  | cons c t ih =>
    intro b a h b2 a2 heq
    simp only [firstMatch] at h
    split at h
    · rw [Option.some.injEq, Prod.mk.injEq] at h
      rw [← h.1]
      simp
    · rename_i hp
      rw [Option.map_eq_some'] at h
      obtain ⟨⟨b0, a0⟩, hfm, hf⟩ := h
      rw [Prod.mk.injEq] at hf
      obtain ⟨hb, ha⟩ := hf
      cases b2 with
      | nil =>
        have hpre : pat <+: c :: t := ⟨a2, by simpa using heq.symm⟩
        exact absurd (List.isPrefixOf_iff_prefix.mpr hpre) hp
      | cons c2 b2t =>
        rw [List.cons_append, List.cons_append, List.cons.injEq] at heq
        have hle := ih b0 a0 hfm b2t a2 heq.2
        rw [← hb]
        simp only [List.length_cons]
        omega

theorem marker_no_straddle :
    ∀ u : List Char,
      marker.toList.isPrefixOf (u ++ ' ' :: marker.toList) = true →
      u = [] ∨ marker.toList.isPrefixOf u = true := by
  intro u h
  obtain ⟨r, hr⟩ := List.isPrefixOf_iff_prefix.mp h
  have hmlen : marker.toList.length = 6 := by decide
  have htake : (marker.toList ++ r).take 6 = marker.toList := by
    rw [← hmlen]
    exact List.take_left _ _
  by_cases h6 : 6 ≤ u.length
  · right
    have h2 : (u ++ ' ' :: marker.toList).take 6 = u.take 6 := by
      rw [List.take_append_eq_append_take]
      have hz : (6 : Nat) - u.length = 0 := by omega
      rw [hz]
      simp
    have hm : marker.toList = u.take 6 := by
      rw [← htake, hr, h2]
    rw [List.isPrefixOf_iff_prefix, hm]
    exact List.take_prefix 6 u
  · cases hu : u with
    | nil => exact Or.inl rfl
    | cons c ut =>
      exfalso
      subst hu
      have hlen : (c :: ut).length ≤ 5 := by
        simp only [List.length_cons] at h6 ⊢
        omega
      have h2 : (( c :: ut) ++ ' ' :: marker.toList).take 6 =
          (c :: ut) ++ (' ' :: marker.toList).take (6 - (c :: ut).length) := by
        rw [List.take_append_eq_append_take, List.take_of_length_le (by omega)]
      have hpos : ∃ m, 6 - (c :: ut).length = m + 1 := by
        refine ⟨5 - (c :: ut).length, ?_⟩
        omega
      obtain ⟨m, hm6⟩ := hpos
      have htake2 : List.take 6 (c :: ut ++ ' ' :: marker.toList) = marker.toList := by
        rw [← hr]
        exact htake
      rw [h2, hm6, List.take_succ_cons] at htake2
      have hmem : ' ' ∈ marker.toList := by
        rw [← htake2]
        simp
      exact absurd hmem (by decide)

theorem firstMatch_append_marker :
    ∀ t : List Char, jsIncludes t marker.toList = false →
      firstMatch (t ++ ' ' :: marker.toList) marker.toList =
        some (t ++ [' '], []) := by
  intro t
  induction t with
  | nil => intro _; decide
  | cons c t ih =>
    intro h
    rw [jsIncludes, Bool.or_eq_false_iff] at h
    obtain ⟨hp, hrec⟩ := h
    have hp2 : marker.toList.isPrefixOf ((c :: t) ++ ' ' :: marker.toList) = false := by
      by_contra hcon
      have hcon2 : marker.toList.isPrefixOf ((c :: t) ++ ' ' :: marker.toList) = true := by
        revert hcon
        cases marker.toList.isPrefixOf ((c :: t) ++ ' ' :: marker.toList) <;> simp
      rcases marker_no_straddle (c :: t) hcon2 with h0 | h0
      · exact List.noConfusion h0
      · rw [hp] at h0
        exact Bool.false_ne_true h0
    rw [List.cons_append]
    rw [List.cons_append] at hp2
    simp only [firstMatch, hp2, Bool.false_eq_true, if_false, ih hrec,
      Option.map_some']
    rfl

/-- C7 (amended).  For every template there are fixed `pre` and `post`
(depending only on the template) such that, for every content free of the
dollar character (which JS replace would interpret as substitution
patterns), filling produces exactly `pre ++ content ++ post` — so the
content is inserted exactly once.  When the template contains the literal
placeholder (the token spelled with the Chinese word for "article"
between double braces), `pre`/`post` split the template at the FIRST
placeholder occurrence, so later occurrences are left verbatim inside
`post`; when it does not, `pre` is the template followed by a single
space and `post` is empty, i.e. the content is appended after one
space. -/
theorem fillTemplate_spec :
    ∀ template : String, ∃ pre post : List Char,
      (∀ content : String, '$' ∉ content.toList →
          (fillTemplate template content).toList = pre ++ content.toList ++ post) ∧
      (jsIncludes template.toList marker.toList = true →
          template.toList = pre ++ marker.toList ++ post ∧
          ∀ b a, template.toList = b ++ marker.toList ++ a →
            pre.length ≤ b.length) ∧
      (jsIncludes template.toList marker.toList = false →
          pre = template.toList ++ [' '] ∧ post = []) := by
  intro template
  by_cases hinc : jsIncludes template.toList marker.toList = true
  · have hsome : (firstMatch template.toList marker.toList).isSome := by
      rw [← firstMatch_isSome]
      exact hinc
    obtain ⟨⟨b, a⟩, hfm⟩ := Option.isSome_iff_exists.mp hsome
    refine ⟨b, a, ?_, ?_, ?_⟩
    · intro content hc
      simp only [fillTemplate]
      rw [if_neg (fun hcon => hcon hinc)]
      simp only [jsReplaceFirst]
      rw [hfm]
      show b ++ getSubstitution marker.toList b a content.toList ++ a =
        b ++ content.toList ++ a
      rw [getSubstitution_no_dollar _ _ _ _ hc]
    · intro _
      exact ⟨firstMatch_decomp _ _ _ _ hfm,
        fun b2 a2 h2 => firstMatch_minimal _ _ _ _ hfm b2 a2 h2⟩
    · intro hfalse
      rw [hinc] at hfalse
      exact absurd hfalse (by simp)
  · have hfalse : jsIncludes template.toList marker.toList = false := by
      revert hinc
      cases jsIncludes template.toList marker.toList <;> simp
    have hfm := firstMatch_append_marker template.toList hfalse
    refine ⟨template.toList ++ [' '], [], ?_, ?_, fun _ => ⟨rfl, rfl⟩⟩
    · intro content hc
      simp only [fillTemplate]
      rw [if_pos hinc]
      have happ : (template ++ " " ++ marker).toList =
          template.toList ++ ' ' :: marker.toList := by
        show (template.toList ++ " ".toList) ++ marker.toList =
          template.toList ++ ' ' :: marker.toList
        rw [List.append_assoc]
        rfl
      rw [happ]
      simp only [jsReplaceFirst]
      rw [hfm]
      show (template.toList ++ [' ']) ++
          getSubstitution marker.toList (template.toList ++ [' ']) []
            content.toList ++ [] =
        template.toList ++ [' '] ++ content.toList ++ []
      rw [getSubstitution_no_dollar _ _ _ _ hc]
    · intro htrue
      exact absurd htrue hinc

/-- Witness for C7 on a placeholder-free template and dollar-free
content: the content is appended after a single space. -/
theorem fillTemplate_spec_witness :
    ¬ ('$' ∈ ("X" : String).toList) ∧
    ∃ pre post : List Char,
      (fillTemplate "Summarize" "X").toList = pre ++ ("X" : String).toList ++ post ∧
      pre = ("Summarize" : String).toList ++ [' '] ∧ post = [] := by
  refine ⟨by decide, ?_⟩
  obtain ⟨pre, post, hfill, _, hno⟩ := fillTemplate_spec "Summarize"
  obtain ⟨hpre, hpost⟩ := hno (by decide)
  exact ⟨pre, post, hfill "X" (by decide), hpre, hpost⟩

/-- Counterexample to C7 as stated: the placeholder literal in the code
is not the ASCII token "(double-brace)article(double-brace)" — a template
containing only that ASCII token takes the no-placeholder branch, so the
content is appended instead of substituted; and a content of "$&" is
interpreted by JS replace as the matched-pattern substitution, so the
content is not present in the result at all. -/
theorem fillTemplate_spec_cex :
    fillTemplate "Summarize: \x7b\x7barticle\x7d\x7d" "X" =
      "Summarize: \x7b\x7barticle\x7d\x7d X" ∧
    fillTemplate "Summarize: \x7b\x7barticle\x7d\x7d" "X" ≠ "Summarize: X" ∧
    fillTemplate "a \x7b\x7b文章\x7d\x7d b" "$&" = "a \x7b\x7b文章\x7d\x7d b" ∧
    ¬ ∃ pre post : List Char,
        (fillTemplate "a \x7b\x7b文章\x7d\x7d b" "$&").toList =
          pre ++ ("$&" : String).toList ++ post := by
  refine ⟨by decide, by decide, by decide, ?_⟩
  intro ⟨pre, post, h⟩
  have hd : '$' ∈ (fillTemplate "a \x7b\x7b文章\x7d\x7d b" "$&").toList := by
    rw [h]
    simp
  revert hd
  decide

/-! ## Claim C9 — processing-tracker round trip -/

/-- C9.  Marking an item processed (creating one thumbs-down reaction)
makes the processed check true for both issue-hosted and
discussion-hosted items; an item never marked (no thumbs-down data)
checks false; and the checks hold exactly when the issue comment's
thumbs-down count is positive, respectively exactly when some attached
reaction node carries the THUMBS_DOWN content tag. -/
theorem processingTracker_roundtrip :
    (∀ c : IssueComment,
      GitHubClient.hasThumbsDownReaction (GitHubClient.markIssueProcessed c) = true) ∧
    (∀ c : GitHubClient.DiscussionComment,
      GitHubClient.hasDiscussionThumbsDownReaction
        (GitHubClient.markDiscussionProcessed c) = true) ∧
    (∀ c : IssueComment,
      (c.reactions.map IssueReactions.negOne).getD 0 = 0 →
      GitHubClient.hasThumbsDownReaction c = false) ∧
    (∀ c : GitHubClient.DiscussionComment,
      (∀ n ∈ GitHubClient.reactionNodes c, n.content ≠ "THUMBS_DOWN") →
      GitHubClient.hasDiscussionThumbsDownReaction c = false) ∧
    (∀ c : IssueComment,
      GitHubClient.hasThumbsDownReaction c = true ↔
        0 < (c.reactions.map IssueReactions.negOne).getD 0) ∧
    (∀ c : GitHubClient.DiscussionComment,
      GitHubClient.hasDiscussionThumbsDownReaction c = true ↔
        ∃ n ∈ GitHubClient.reactionNodes c, n.content = "THUMBS_DOWN") := by
  refine ⟨?_, ?_, ?_, ?_, ?_, ?_⟩
  · intro c
    simp [GitHubClient.hasThumbsDownReaction, GitHubClient.markIssueProcessed]
  · intro c
    simp [GitHubClient.hasDiscussionThumbsDownReaction,
      GitHubClient.markDiscussionProcessed]
  · intro c h
    cases hr : c.reactions with
    | none => simp [GitHubClient.hasThumbsDownReaction, hr]
    | some r =>
      rw [hr] at h
      simp only [Option.map_some', Option.getD_some] at h
      simp [GitHubClient.hasThumbsDownReaction, hr, h]
  · intro c h
    cases hr : c.reactions with
    | none => simp [GitHubClient.hasDiscussionThumbsDownReaction, hr]
    | some r =>
      cases hn : r.nodes with
      | none => simp [GitHubClient.hasDiscussionThumbsDownReaction, hr, hn]
      | some nodes =>
        have hall : ∀ n ∈ nodes, n.content ≠ "THUMBS_DOWN" := by
          intro n hmem
          apply h
          simp [GitHubClient.reactionNodes, hr, hn, hmem]
        simp only [GitHubClient.hasDiscussionThumbsDownReaction, hr, hn]
        rw [List.any_eq_false]
        intro n hmem
        simp [hall n hmem]
  · intro c
    cases hr : c.reactions with
    | none => simp [GitHubClient.hasThumbsDownReaction, hr]
    | some r => simp [GitHubClient.hasThumbsDownReaction, hr]
  · intro c
    cases hr : c.reactions with
    | none => simp [GitHubClient.hasDiscussionThumbsDownReaction,
        GitHubClient.reactionNodes, hr]
    | some r =>
      cases hn : r.nodes with
      | none => simp [GitHubClient.hasDiscussionThumbsDownReaction,
          GitHubClient.reactionNodes, hr, hn]
      | some nodes =>
        simp [GitHubClient.hasDiscussionThumbsDownReaction,
          GitHubClient.reactionNodes, hr, hn, List.any_eq_true]

/-- Witness for C9: a concrete unmarked issue comment and discussion
comment check false, and check true after marking. -/
theorem processingTracker_roundtrip_witness :
    GitHubClient.hasThumbsDownReaction ⟨1, "b", none⟩ = false ∧
    GitHubClient.hasThumbsDownReaction
      (GitHubClient.markIssueProcessed ⟨1, "b", none⟩) = true ∧
    GitHubClient.hasDiscussionThumbsDownReaction ⟨"b", none⟩ = false ∧
    GitHubClient.hasDiscussionThumbsDownReaction
      (GitHubClient.markDiscussionProcessed ⟨"b", none⟩) = true := by
  refine ⟨?_, ?_, ?_, ?_⟩
  · exact processingTracker_roundtrip.2.2.1 ⟨1, "b", none⟩ (by decide)
  · exact processingTracker_roundtrip.1 ⟨1, "b", none⟩
  · exact processingTracker_roundtrip.2.2.2.1 ⟨"b", none⟩ (by decide)
  · exact processingTracker_roundtrip.2.1 ⟨"b", none⟩

/-! ## Claim C10 — absent reactions data is safe -/

/-- C10.  When a comment's reactions data is entirely absent (no
reactions field for issue-hosted items; no reactions field or no nodes
list for discussion-hosted items), every processed-check predicate
returns false — such items are always treated as eligible for
processing, and no error is possible since the predicates are total
functions. -/
theorem reaction_absent_safe :
    (∀ c : IssueComment, c.reactions = none →
      hasThumbsDownReaction c = false ∧
      GitHubClient.hasThumbsDownReaction c = false) ∧
    (∀ c : GitHubClient.DiscussionComment,
      c.reactions = none ∨ c.reactions = some ⟨none⟩ →
      GitHubClient.hasDiscussionThumbsDownReaction c = false) := by
  constructor
  · intro c h
    exact ⟨by simp [hasThumbsDownReaction, h],
      by simp [GitHubClient.hasThumbsDownReaction, h]⟩
  · intro c h
    rcases h with h | h <;>
      simp [GitHubClient.hasDiscussionThumbsDownReaction, h]

/-- Witness for C10 at concrete reaction-less comments. -/
theorem reaction_absent_safe_witness :
    hasThumbsDownReaction ⟨7, "cfg", none⟩ = false ∧
    GitHubClient.hasThumbsDownReaction ⟨7, "cfg", none⟩ = false ∧
    GitHubClient.hasDiscussionThumbsDownReaction ⟨"d", some ⟨none⟩⟩ = false := by
  obtain ⟨h1, h2⟩ := reaction_absent_safe.1 ⟨7, "cfg", none⟩ rfl
  have h3 := reaction_absent_safe.2 ⟨"d", some ⟨none⟩⟩ (Or.inr rfl)
  exact ⟨h1, h2, h3⟩
